import Mathlib

/-
Verification of the code-fence extraction core of the Screenshot2CodeAgent
repository (`src/my_agent/agent.py`, function `parse_and_clean_code`).

The Python function is:

    def parse_and_clean_code(raw_code: str) -> str:
        print("Running code parser...")
        if not isinstance(raw_code, str):
            raw_code = str(raw_code)
        clean_text = raw_code.strip()
        code_regex = re.compile(r'(three backticks)(?:[a-zA-Z0-9_]*)\s*([\s\S]*?)\s*(three backticks)', re.DOTALL)
        match = code_regex.search(clean_text)
        if match:
            clean_code = match.group(1).strip()
        else:
            clean_code = clean_text
        return clean_code

We embed strings as `List Char` and model the regex search with Python's
exact backtracking order for this fixed pattern: the literal open fence,
then a greedy word-character run (tried longest first), a greedy
whitespace run (longest first), a lazy arbitrary span (shortest first),
a greedy whitespace run (longest first) and the literal closing fence,
with `re.search` trying start positions left to right.
-/

/-- The backtick character, written by code point to keep it out of the
source text. -/
def btick : Char := Char.ofNat 96

/-- The list of characters of a triple-backtick fence marker. -/
def fenceChars : List Char := [btick, btick, btick]

/-- Python's whitespace predicate (`str.isspace`, also the set matched by
the regex class backslash-s on `str` patterns in CPython). -/
def isPySpace (c : Char) : Bool :=
  let n := c.toNat
  (9 ≤ n && n ≤ 13) || (28 ≤ n && n ≤ 31) || n = 32 || n = 133 || n = 160 ||
    n = 5760 || (8192 ≤ n && n ≤ 8202) || n = 8232 || n = 8233 || n = 8239 ||
    n = 8287 || n = 12288

/-- The character class `[a-zA-Z0-9_]` of the regex's language tag. -/
def isWordChar (c : Char) : Bool :=
  ('a' ≤ c && c ≤ 'z') || ('A' ≤ c && c ≤ 'Z') || ('0' ≤ c && c ≤ '9') || c = '_'

/-- Drop trailing Python whitespace (the right half of `str.strip()`). -/
def dropTrailingSpace (l : List Char) : List Char :=
  (l.reverse.dropWhile isPySpace).reverse

/-- Python's `str.strip()`: remove leading and trailing whitespace. -/
def pyStrip (l : List Char) : List Char :=
  dropTrailingSpace (l.dropWhile isPySpace)

/-- Length of the leading whitespace run of a string (the maximal span the
greedy `backslash-s*` can take). -/
def spaceRun (l : List Char) : Nat := (l.takeWhile isPySpace).length

/-- Length of the leading `[a-zA-Z0-9_]` run of a string (the maximal span
the greedy language tag can take). -/
def wordRun (l : List Char) : Nat := (l.takeWhile isWordChar).length

/-- Does the string begin with a literal triple-backtick fence? -/
def startsWithFence (l : List Char) : Bool :=
  match l with
  | a :: b :: c :: _ => a == btick && b == btick && c == btick
  | _ => false

/-- Does the string contain a triple-backtick fence anywhere? -/
def hasFence : List Char → Bool
  | [] => false
  | c :: rest => startsWithFence (c :: rest) || hasFence rest

/-- The final greedy `backslash-s*` before the closing fence: try widths
from `n` down to `0` and return the first width at which the literal
closing fence follows (Python's greedy backtracking order). -/
def tryWs2From (v : List Char) : Nat → Option Nat
  | 0 => if startsWithFence v then some 0 else none
  | w + 1 =>
    if startsWithFence (v.drop (w + 1)) then some (w + 1) else tryWs2From v w

/-- The lazy group `([backslash-s big-S]*?)`: try capture lengths `L`
upward (shortest first); at each length run the greedy trailing
whitespace-and-fence tail.  `fuel` bounds the remaining lengths to try. -/
def tryLazyFrom (t2 : List Char) : Nat → Nat → Option Nat
  | _, 0 => none
  | L, fuel + 1 =>
    match tryWs2From (t2.drop L) (spaceRun (t2.drop L)) with
    | some _ => some L
    | none => tryLazyFrom t2 (L + 1) fuel

/-- Run the lazy group on the text following the opening fence, tag and
first whitespace run, returning the captured span. -/
def tryAfterTagWs (t2 : List Char) : Option (List Char) :=
  match tryLazyFrom t2 0 (t2.length + 1) with
  | some L => some (t2.take L)
  | none => none

/-- The first greedy `backslash-s*` (after the language tag): try widths
from `n` down to `0`, running the rest of the pattern at each width. -/
def tryWs1From (t1 : List Char) : Nat → Option (List Char)
  | 0 => tryAfterTagWs t1
  | w + 1 =>
    match tryAfterTagWs (t1.drop (w + 1)) with
    | some c => some c
    | none => tryWs1From t1 w

/-- The greedy language tag `(?:[a-zA-Z0-9_]*)`: try tag lengths from `n`
down to `0`, running the rest of the pattern at each length. -/
def tryTagFrom (t : List Char) : Nat → Option (List Char)
  | 0 => tryWs1From t (spaceRun t)
  | k + 1 =>
    match tryWs1From (t.drop (k + 1)) (spaceRun (t.drop (k + 1))) with
    | some c => some c
    | none => tryTagFrom t k

/-- Match the part of the pattern after the literal opening fence against
`t`, returning the lazily captured group on success. -/
def matchAfterOpen (t : List Char) : Option (List Char) :=
  tryTagFrom t (wordRun t)

/-- `re.search` of the fence pattern: try start positions left to right;
at each position the literal opening fence must match, then the rest of
the pattern runs with full backtracking. -/
def searchFrom : List Char → Option (List Char)
  | [] => none
  | c :: rest =>
    match
      (if startsWithFence (c :: rest) then matchAfterOpen ((c :: rest).drop 3)
       else none) with
    | some cap => some cap
    | none => searchFrom rest

/-- A Python value reaching `parse_and_clean_code`: either a string, or a
non-string value (an integer in the spec's example) which the function
coerces with `str(...)`. -/
inductive PyValue where
  | str : List Char → PyValue
  | intVal : Int → PyValue

/-- Python's `str(...)` coercion on the modelled values. -/
def pyToStr : PyValue → List Char
  | .str s => s
  | .intVal n => (toString n).data

/-- The embedded `parse_and_clean_code`: coerce to a string, strip, search
for the first fenced block, on a match return the stripped capture,
otherwise return the stripped input. -/
def parse_and_clean_code (v : PyValue) : List Char :=
  let raw_code := pyToStr v
  let clean_text := pyStrip raw_code
  match searchFrom clean_text with
  | some g => pyStrip g
  | none => clean_text

/-- The extractor specialised to string inputs (the spec's `extract`). -/
def extract (s : List Char) : List Char :=
  parse_and_clean_code (.str s)

/-- `parse_and_clean_code` together with its diagnostic trace: the Python
function first prints "Running code parser..." and then computes its
result; the trace is modelled as an explicit list of emitted lines. -/
def parse_and_clean_code_traced (v : PyValue) : List Char × List (List Char) :=
  let trace : List (List Char) := ["Running code parser...".data]
  let raw_code := pyToStr v
  let clean_text := pyStrip raw_code
  match searchFrom clean_text with
  | some g => (pyStrip g, trace)
  | none => (clean_text, trace)

/-- Analysis device: the whole pattern attempted at one fixed start
position, as `re.search` does at each position in turn. -/
def matchAtPos (t : List Char) (i : Nat) : Option (List Char) :=
  if startsWithFence (t.drop i) then matchAfterOpen (t.drop (i + 3)) else none

/-- Analysis device: can the trailing `backslash-s* fence` part of the
pattern consume a prefix of `v`?  Because the whitespace class excludes
the backtick, this holds exactly when the leading whitespace run of `v`
is followed by a fence. -/
def closeOK (v : List Char) : Bool :=
  startsWithFence (v.dropWhile isPySpace)

/-- Index of the first triple-backtick occurrence in a string, if any. -/
def firstFenceIdx : List Char → Option Nat
  | [] => none
  | c :: rest =>
    if startsWithFence (c :: rest) then some 0
    else
      match firstFenceIdx rest with
      | some n => some (n + 1)
      | none => none

/-- Formalisation of the spec's own description of the fenced-block
pattern (spec §4.1, Step 2): at position `i` the text reads three
backticks, then a language tag (a contiguous run of word characters,
ending at the first non-word character), then any whitespace (the whole
whitespace run), then a lazily-matched span `cap`, then
whitespace-then-three-backticks (a possibly empty whitespace run before
the closing fence, just as the opening side says "any whitespace").
Laziness is expressed by the final clause: no decomposition of the same
text reaches a closing fence with a shorter captured span. -/
def SpecCapture (t : List Char) (i : Nat) (cap : List Char) : Prop :=
  ∃ lang ws1 ws2 rest,
    t.drop i = fenceChars ++ (lang ++ (ws1 ++ (cap ++ (ws2 ++ (fenceChars ++ rest))))) ∧
    lang.all isWordChar = true ∧
    (∀ c r, ws1 ++ (cap ++ (ws2 ++ (fenceChars ++ rest))) = c :: r → isWordChar c = false) ∧
    ws1.all isPySpace = true ∧
    (∀ c r, cap ++ (ws2 ++ (fenceChars ++ rest)) = c :: r → isPySpace c = false) ∧
    ws2.all isPySpace = true ∧
    (∀ cap2 ws3 rest2,
      cap ++ (ws2 ++ (fenceChars ++ rest)) = cap2 ++ (ws3 ++ (fenceChars ++ rest2)) →
      ws3.all isPySpace = true → cap.length ≤ cap2.length)

/-- The spec's pattern matches somewhere at position `i`. -/
def SpecBlockAt (t : List Char) (i : Nat) : Prop :=
  ∃ c, SpecCapture t i c

/-- `cap` is the captured span of the FIRST occurrence of the spec's
pattern in `t`. -/
def SpecFirstMatch (t : List Char) (cap : List Char) : Prop :=
  ∃ i, SpecCapture t i cap ∧ ∀ j, j < i → ¬ SpecBlockAt t j

/-! ### Basic character and scanning lemmas -/

theorem isPySpace_btick : isPySpace btick = false := by decide

theorem isWordChar_btick : isWordChar btick = false := by decide

theorem startsWithFence_eq {l : List Char} (h : startsWithFence l = true) :
    ∃ r, l = btick :: btick :: btick :: r := by
  cases l with
  | nil => simp [startsWithFence] at h
  | cons a l1 =>
    cases l1 with
    | nil => simp [startsWithFence] at h
    | cons b l2 =>
      cases l2 with
      | nil => simp [startsWithFence] at h
      | cons c r =>
        simp only [startsWithFence, Bool.and_eq_true, beq_iff_eq] at h
        obtain ⟨⟨h1, h2⟩, h3⟩ := h
        exact ⟨r, by rw [h1, h2, h3]⟩

theorem startsWithFence_cons3 (r : List Char) :
    startsWithFence (btick :: btick :: btick :: r) = true := by
  simp [startsWithFence]

theorem startsWithFence_fence_append (r : List Char) :
    startsWithFence (fenceChars ++ r) = true := by
  simpa [fenceChars] using startsWithFence_cons3 r

theorem startsWithFence_length {l : List Char} (h : startsWithFence l = true) :
    3 ≤ l.length := by
  obtain ⟨r, rfl⟩ := startsWithFence_eq h
  simp only [List.length_cons]
  omega

theorem dropWhile_eq_drop (p : Char → Bool) (l : List Char) :
    l.dropWhile p = l.drop (l.takeWhile p).length := by
  induction l with
  | nil => rfl
  | cons c r ih =>
    cases h : p c with
    | true => simp [List.dropWhile_cons, List.takeWhile_cons, h, ih]
    | false => simp [List.dropWhile_cons, List.takeWhile_cons, h]

theorem drop_spaceRun (l : List Char) :
    l.drop (spaceRun l) = l.dropWhile isPySpace :=
  (dropWhile_eq_drop isPySpace l).symm

theorem drop_wordRun (l : List Char) :
    l.drop (wordRun l) = l.dropWhile isWordChar :=
  (dropWhile_eq_drop isWordChar l).symm

theorem dropWhile_head_not {p : Char → Bool} {l : List Char} {c : Char} {r : List Char}
    (h : l.dropWhile p = c :: r) : p c = false := by
  induction l with
  | nil => simp at h
  | cons a l1 ih =>
    rw [List.dropWhile_cons] at h
    by_cases ha : p a = true
    · rw [if_pos ha] at h; exact ih h
    · rw [if_neg ha] at h
      injection h with h1 _
      subst h1
      simpa using ha

theorem dropWhile_cons_of_neg {p : Char → Bool} {c : Char} (r : List Char)
    (h : p c = false) : (c :: r).dropWhile p = c :: r := by
  rw [List.dropWhile_cons, if_neg (by simp [h])]

theorem dropWhile_eq_self_of_head {p : Char → Bool} {l : List Char}
    (h : ∀ c r, l = c :: r → p c = false) : l.dropWhile p = l := by
  cases l with
  | nil => rfl
  | cons c r => exact dropWhile_cons_of_neg r (h c r rfl)

theorem takeWhile_all (p : Char → Bool) (l : List Char) :
    (l.takeWhile p).all p = true := by
  induction l with
  | nil => rfl
  | cons c r ih =>
    rw [List.takeWhile_cons]
    by_cases h : p c = true
    · rw [if_pos h]; simp [List.all_cons, h, ih]
    · rw [if_neg h]; rfl

theorem dropWhile_append_of_all {p : Char → Bool} {a : List Char} (b : List Char)
    (h : a.all p = true) : (a ++ b).dropWhile p = b.dropWhile p := by
  rw [List.dropWhile_append, if_pos]
  simp only [List.isEmpty_iff, List.dropWhile_eq_nil_iff]
  exact fun x hx => (List.all_eq_true.mp h) x hx

theorem dropWhile_append_of_ne_nil {p : Char → Bool} {a : List Char} (b : List Char)
    (h : ¬ a.dropWhile p = []) : (a ++ b).dropWhile p = a.dropWhile p ++ b := by
  rw [List.dropWhile_append, if_neg]
  simpa [List.isEmpty_iff] using h

theorem dropWhile_idem (p : Char → Bool) (l : List Char) :
    (l.dropWhile p).dropWhile p = l.dropWhile p :=
  dropWhile_eq_self_of_head (fun _ _ he => dropWhile_head_not he)

/-! ### Fence-occurrence lemmas -/

theorem hasFence_cons (c : Char) (r : List Char) :
    hasFence (c :: r) = (startsWithFence (c :: r) || hasFence r) := rfl

theorem hasFence_of_fence {l : List Char} (h : startsWithFence l = true) :
    hasFence l = true := by
  cases l with
  | nil => simp [startsWithFence] at h
  | cons c r => rw [hasFence_cons, h]; rfl

theorem hasFence_iff {l : List Char} :
    hasFence l = true ↔ ∃ i, startsWithFence (l.drop i) = true := by
  induction l with
  | nil => simp [hasFence, List.drop_nil, startsWithFence]
  | cons c r ih =>
    rw [hasFence_cons, Bool.or_eq_true]
    constructor
    · rintro (h | h)
      · exact ⟨0, by simpa using h⟩
      · obtain ⟨i, hi⟩ := ih.mp h
        exact ⟨i + 1, by simpa using hi⟩
    · rintro ⟨i, hi⟩
      cases i with
      | zero => exact Or.inl (by simpa using hi)
      | succ i => exact Or.inr (ih.mpr ⟨i, by simpa using hi⟩)

theorem startsWithFence_append {a : List Char} (b : List Char)
    (h : startsWithFence a = true) : startsWithFence (a ++ b) = true := by
  obtain ⟨r, rfl⟩ := startsWithFence_eq h
  simpa using startsWithFence_cons3 (r ++ b)

theorem hasFence_append_right {b : List Char} (a : List Char)
    (h : hasFence b = true) : hasFence (a ++ b) = true := by
  induction a with
  | nil => simpa using h
  | cons c a ih =>
    rw [List.cons_append, hasFence_cons, ih]
    simp

theorem hasFence_append_left {a : List Char} (b : List Char)
    (h : hasFence a = true) : hasFence (a ++ b) = true := by
  rw [hasFence_iff] at h ⊢
  obtain ⟨i, hi⟩ := h
  refine ⟨i, ?_⟩
  rw [List.drop_append_eq_append_drop]
  exact startsWithFence_append _ hi

theorem hasFence_false_append {a b : List Char} (h : hasFence (a ++ b) = false) :
    hasFence a = false ∧ hasFence b = false := by
  constructor
  · cases ha : hasFence a with
    | false => rfl
    | true => rw [hasFence_append_left b ha] at h; cases h
  · cases hb : hasFence b with
    | false => rfl
    | true => rw [hasFence_append_right a hb] at h; cases h

theorem hasFence_drop {l : List Char} {n : Nat} (h : hasFence (l.drop n) = true) :
    hasFence l = true := by
  rw [hasFence_iff] at h ⊢
  obtain ⟨i, hi⟩ := h
  rw [List.drop_drop] at hi
  exact ⟨n + i, hi⟩

theorem hasFence_drop_false {l : List Char} (n : Nat) (h : hasFence l = false) :
    hasFence (l.drop n) = false := by
  cases hd : hasFence (l.drop n) with
  | false => rfl
  | true => rw [hasFence_drop hd] at h; cases h

theorem hasFence_dropWhile {p : Char → Bool} (hp : p btick = false) (l : List Char) :
    hasFence (l.dropWhile p) = hasFence l := by
  induction l with
  | nil => rfl
  | cons c r ih =>
    rw [List.dropWhile_cons]
    by_cases h : p c = true
    · rw [if_pos h, ih, hasFence_cons]
      have hc : startsWithFence (c :: r) = false := by
        cases hs : startsWithFence (c :: r) with
        | false => rfl
        | true =>
          obtain ⟨r', he⟩ := startsWithFence_eq hs
          injection he with h1 _
          rw [h1, hp] at h
          cases h
      rw [hc]
      simp
    · rw [if_neg h]

/-! ### The trailing whitespace-and-fence tail (`tryWs2From`) -/

theorem drop_head_space {v : List Char} {w : Nat} (h : w < spaceRun v) :
    ∃ c r, v.drop w = c :: r ∧ isPySpace c = true := by
  induction v generalizing w with
  | nil => simp [spaceRun, List.takeWhile] at h
  | cons c r ih =>
    rw [spaceRun, List.takeWhile_cons] at h
    by_cases hc : isPySpace c = true
    · rw [if_pos hc] at h
      cases w with
      | zero => exact ⟨c, r, rfl, hc⟩
      | succ w =>
        simp only [List.length_cons] at h
        have hw : w < spaceRun r := by rw [spaceRun]; omega
        simpa using ih hw
    · rw [if_neg hc] at h
      simp at h

theorem not_fence_of_head_space {c : Char} {r : List Char} (h : isPySpace c = true) :
    startsWithFence (c :: r) = false := by
  cases hs : startsWithFence (c :: r) with
  | false => rfl
  | true =>
    obtain ⟨r', he⟩ := startsWithFence_eq hs
    injection he with h1 _
    rw [h1, isPySpace_btick] at h
    cases h

theorem tryWs2From_below_none {v : List Char} :
    ∀ n, (∀ w, w ≤ n → startsWithFence (v.drop w) = false) → tryWs2From v n = none := by
  intro n
  induction n with
  | zero =>
    intro h
    have h0 := h 0 (Nat.le_refl 0)
    rw [List.drop_zero] at h0
    simp [tryWs2From, h0]
  | succ n ih =>
    intro h
    have hn := h (n + 1) (Nat.le_refl _)
    rw [tryWs2From, hn]
    simpa using ih (fun w hw => h w (Nat.le_succ_of_le hw))

theorem tryWs2From_top {v : List Char} {n : Nat}
    (h : startsWithFence (v.drop n) = true) : tryWs2From v n = some n := by
  cases n with
  | zero => rw [List.drop_zero] at h; simp [tryWs2From, h]
  | succ n => rw [tryWs2From, h]; simp

theorem tryWs2From_isSome_closeOK (v : List Char) :
    (tryWs2From v (spaceRun v)).isSome = closeOK v := by
  cases h : closeOK v with
  | true =>
    rw [closeOK, ← drop_spaceRun] at h
    rw [tryWs2From_top h]
    rfl
  | false =>
    rw [tryWs2From_below_none (spaceRun v) ?_]
    · rfl
    · intro w hw
      rcases Nat.lt_or_ge w (spaceRun v) with hlt | hge
      · obtain ⟨c, r, he, hc⟩ := drop_head_space hlt
        rw [he]
        exact not_fence_of_head_space hc
      · have : w = spaceRun v := Nat.le_antisymm hw hge
        subst this
        rw [closeOK, ← drop_spaceRun] at h
        exact h

/-! ### The lazy capture group (`tryLazyFrom`) -/

theorem tryLazyFrom_succ (t2 : List Char) (L fuel : Nat) :
    tryLazyFrom t2 L (fuel + 1) =
      if closeOK (t2.drop L) then some L else tryLazyFrom t2 (L + 1) fuel := by
  rw [tryLazyFrom]
  have hiff := tryWs2From_isSome_closeOK (t2.drop L)
  cases h : tryWs2From (t2.drop L) (spaceRun (t2.drop L)) with
  | none =>
    rw [h] at hiff
    rw [if_neg]
    simp only [← hiff, Option.isSome_none, Bool.false_eq_true, not_false_eq_true]
  | some w =>
    rw [h] at hiff
    rw [if_pos]
    rw [← hiff]
    simp

theorem tryLazyFrom_some {t2 : List Char} :
    ∀ fuel L M, tryLazyFrom t2 L fuel = some M →
      L ≤ M ∧ closeOK (t2.drop M) = true ∧
        ∀ j, L ≤ j → j < M → closeOK (t2.drop j) = false := by
  intro fuel
  induction fuel with
  | zero => intro L M h; simp [tryLazyFrom] at h
  | succ fuel ih =>
    intro L M h
    rw [tryLazyFrom_succ] at h
    cases hc : closeOK (t2.drop L) with
    | true =>
      rw [hc, if_pos rfl] at h
      injection h with h
      subst h
      exact ⟨Nat.le_refl _, hc, fun j h1 h2 => absurd (Nat.lt_of_le_of_lt h1 h2) (Nat.lt_irrefl _)⟩
    | false =>
      rw [hc] at h
      simp only [Bool.false_eq_true, if_false] at h
      obtain ⟨h1, h2, h3⟩ := ih (L + 1) M h
      refine ⟨by omega, h2, fun j hj1 hj2 => ?_⟩
      rcases Nat.eq_or_lt_of_le hj1 with heq | hlt
      · subst heq; exact hc
      · exact h3 j hlt hj2

theorem tryLazyFrom_eq_some {t2 : List Char} :
    ∀ fuel L M, L ≤ M → M < L + fuel → closeOK (t2.drop M) = true →
      (∀ j, L ≤ j → j < M → closeOK (t2.drop j) = false) →
      tryLazyFrom t2 L fuel = some M := by
  intro fuel
  induction fuel with
  | zero => intro L M h1 h2 _ _; omega
  | succ fuel ih =>
    intro L M h1 h2 h3 h4
    rw [tryLazyFrom_succ]
    rcases Nat.eq_or_lt_of_le h1 with heq | hlt
    · subst heq; rw [h3, if_pos rfl]
    · rw [h4 L (Nat.le_refl _) hlt]
      simp only [Bool.false_eq_true, if_false]
      exact ih (L + 1) M hlt (by omega) h3 (fun j hj1 hj2 => h4 j (by omega) hj2)

theorem tryLazyFrom_isSome {t2 : List Char} :
    ∀ fuel L M, L ≤ M → M < L + fuel → closeOK (t2.drop M) = true →
      (tryLazyFrom t2 L fuel).isSome = true := by
  intro fuel
  induction fuel with
  | zero => intro L M h1 h2 _; omega
  | succ fuel ih =>
    intro L M h1 h2 h3
    rw [tryLazyFrom_succ]
    cases hc : closeOK (t2.drop L) with
    | true => rw [if_pos rfl]; rfl
    | false =>
      simp only [Bool.false_eq_true, if_false]
      have hne : L ≠ M := by
        rintro rfl
        rw [hc] at h3
        cases h3
      exact ih (L + 1) M (by omega) (by omega) h3

theorem closeOK_drop_length {t2 : List Char} {M : Nat} (h : t2.length ≤ M) :
    closeOK (t2.drop M) = false := by
  rw [List.drop_eq_nil_of_le h]
  rfl

theorem lt_length_of_closeOK {t2 : List Char} {M : Nat}
    (h : closeOK (t2.drop M) = true) : M < t2.length := by
  rcases Nat.lt_or_ge M t2.length with hlt | hge
  · exact hlt
  · rw [closeOK_drop_length hge] at h; cases h

theorem closeOK_of_fence {v : List Char} (h : startsWithFence v = true) :
    closeOK v = true := by
  obtain ⟨r, rfl⟩ := startsWithFence_eq h
  rw [closeOK, dropWhile_cons_of_neg _ isPySpace_btick]
  exact h

theorem fence_of_closeOK {v : List Char} (h : closeOK v = true) :
    startsWithFence (v.drop (spaceRun v)) = true := by
  rw [drop_spaceRun]
  exact h

theorem hasFence_iff_closeOK (t2 : List Char) :
    hasFence t2 = true ↔ ∃ M, closeOK (t2.drop M) = true := by
  constructor
  · intro h
    obtain ⟨i, hi⟩ := hasFence_iff.mp h
    exact ⟨i, closeOK_of_fence hi⟩
  · rintro ⟨M, hM⟩
    have := fence_of_closeOK hM
    rw [List.drop_drop] at this
    exact hasFence_iff.mpr ⟨_, this⟩

/-! ### Running the lazy group after tag and whitespace (`tryAfterTagWs`) -/

theorem tryAfterTagWs_some {t2 cap : List Char} (h : tryAfterTagWs t2 = some cap) :
    ∃ M, cap = t2.take M ∧ closeOK (t2.drop M) = true ∧
      ∀ j, j < M → closeOK (t2.drop j) = false := by
  rw [tryAfterTagWs] at h
  cases hl : tryLazyFrom t2 0 (t2.length + 1) with
  | none => rw [hl] at h; cases h
  | some L =>
    rw [hl] at h
    injection h with h
    obtain ⟨_, h2, h3⟩ := tryLazyFrom_some _ _ _ hl
    exact ⟨L, h.symm, h2, fun j hj => h3 j (Nat.zero_le _) hj⟩

theorem tryAfterTagWs_eq_some {t2 : List Char} {M : Nat}
    (h1 : closeOK (t2.drop M) = true) (h2 : ∀ j, j < M → closeOK (t2.drop j) = false) :
    tryAfterTagWs t2 = some (t2.take M) := by
  have hlt := lt_length_of_closeOK h1
  rw [tryAfterTagWs,
    tryLazyFrom_eq_some (t2.length + 1) 0 M (Nat.zero_le _) (by omega) h1
      (fun j _ hj => h2 j hj)]

theorem tryAfterTagWs_isSome (t2 : List Char) :
    (tryAfterTagWs t2).isSome = hasFence t2 := by
  cases hf : hasFence t2 with
  | true =>
    obtain ⟨M, hM⟩ := (hasFence_iff_closeOK t2).mp hf
    have hlt := lt_length_of_closeOK hM
    have := tryLazyFrom_isSome (t2.length + 1) 0 M (Nat.zero_le _) (by omega) hM
    rw [tryAfterTagWs]
    cases hl : tryLazyFrom t2 0 (t2.length + 1) with
    | none => rw [hl] at this; cases this
    | some L => rfl
  | false =>
    rw [tryAfterTagWs]
    cases hl : tryLazyFrom t2 0 (t2.length + 1) with
    | none => rfl
    | some L =>
      obtain ⟨_, h2, _⟩ := tryLazyFrom_some _ _ _ hl
      have : hasFence t2 = true := (hasFence_iff_closeOK t2).mpr ⟨L, h2⟩
      rw [this] at hf
      cases hf

/-! ### The greedy whitespace and tag phases collapse to their maximal runs -/

theorem tryWs1From_none {t1 : List Char} (hf : hasFence t1 = false) :
    ∀ n, tryWs1From t1 n = none := by
  intro n
  induction n with
  | zero =>
    rw [tryWs1From]
    cases h : tryAfterTagWs t1 with
    | none => rfl
    | some c =>
      have hs := tryAfterTagWs_isSome t1
      rw [h, hf] at hs
      cases hs
  | succ n ih =>
    rw [tryWs1From]
    cases h : tryAfterTagWs (t1.drop (n + 1)) with
    | some c =>
      have hs := tryAfterTagWs_isSome (t1.drop (n + 1))
      rw [h, hasFence_drop_false (n + 1) hf] at hs
      cases hs
    | none => exact ih

theorem tryWs1From_spaceRun {t1 : List Char} (hf : hasFence t1 = true) :
    tryWs1From t1 (spaceRun t1) = tryAfterTagWs (t1.dropWhile isPySpace) := by
  have hfd : hasFence (t1.dropWhile isPySpace) = true := by
    rw [hasFence_dropWhile isPySpace_btick]
    exact hf
  cases hn : spaceRun t1 with
  | zero =>
    have hdw : t1.dropWhile isPySpace = t1 := by
      rw [← drop_spaceRun, hn, List.drop_zero]
    rw [tryWs1From, hdw]
  | succ n =>
    have hdw : t1.drop (n + 1) = t1.dropWhile isPySpace := by
      rw [← drop_spaceRun, hn]
    rw [tryWs1From, hdw]
    cases h : tryAfterTagWs (t1.dropWhile isPySpace) with
    | some c => rfl
    | none =>
      have hs := tryAfterTagWs_isSome (t1.dropWhile isPySpace)
      rw [h, hfd] at hs
      cases hs

theorem tryTagFrom_none {t : List Char} (hf : hasFence t = false) :
    ∀ n, tryTagFrom t n = none := by
  intro n
  induction n with
  | zero => rw [tryTagFrom]; exact tryWs1From_none hf _
  | succ n ih =>
    rw [tryTagFrom, tryWs1From_none (hasFence_drop_false (n + 1) hf) _]
    exact ih

theorem tryTagFrom_wordRun {t : List Char} (hf : hasFence t = true) :
    tryTagFrom t (wordRun t) =
      tryAfterTagWs ((t.dropWhile isWordChar).dropWhile isPySpace) := by
  have hfw : hasFence (t.dropWhile isWordChar) = true := by
    rw [hasFence_dropWhile isWordChar_btick]
    exact hf
  have hfd : hasFence ((t.dropWhile isWordChar).dropWhile isPySpace) = true := by
    rw [hasFence_dropWhile isPySpace_btick]
    exact hfw
  cases hn : wordRun t with
  | zero =>
    have hdw : t.dropWhile isWordChar = t := by
      rw [← drop_wordRun, hn, List.drop_zero]
    rw [tryTagFrom, hdw, tryWs1From_spaceRun hf]
  | succ n =>
    have hdw : t.drop (n + 1) = t.dropWhile isWordChar := by
      rw [← drop_wordRun, hn]
    rw [tryTagFrom, hdw, tryWs1From_spaceRun hfw]
    cases h : tryAfterTagWs ((t.dropWhile isWordChar).dropWhile isPySpace) with
    | some c => rfl
    | none =>
      have hs := tryAfterTagWs_isSome ((t.dropWhile isWordChar).dropWhile isPySpace)
      rw [h, hfd] at hs
      cases hs

theorem matchAfterOpen_eq (u : List Char) :
    matchAfterOpen u =
      if hasFence u then tryAfterTagWs ((u.dropWhile isWordChar).dropWhile isPySpace)
      else none := by
  cases hf : hasFence u with
  | true => rw [matchAfterOpen, tryTagFrom_wordRun hf, if_pos rfl]
  | false =>
    rw [matchAfterOpen, tryTagFrom_none hf]
    simp

theorem matchAfterOpen_isSome (u : List Char) :
    (matchAfterOpen u).isSome = hasFence u := by
  rw [matchAfterOpen_eq]
  cases hf : hasFence u with
  | true =>
    rw [if_pos rfl, tryAfterTagWs_isSome, hasFence_dropWhile isPySpace_btick,
      hasFence_dropWhile isWordChar_btick]
    exact hf
  | false => simp

/-! ### The left-to-right search over start positions -/

theorem matchAtPos_zero (t : List Char) :
    matchAtPos t 0 = if startsWithFence t then matchAfterOpen (t.drop 3) else none := by
  simp [matchAtPos]

theorem matchAtPos_succ_cons (c : Char) (rest : List Char) (i : Nat) :
    matchAtPos (c :: rest) (i + 1) = matchAtPos rest i := by
  have h4 : i + 1 + 3 = (i + 3) + 1 := by omega
  rw [matchAtPos, matchAtPos, h4, List.drop_succ_cons, List.drop_succ_cons]

theorem searchFrom_cons (c : Char) (rest : List Char) :
    searchFrom (c :: rest) =
      match matchAtPos (c :: rest) 0 with
      | some cap => some cap
      | none => searchFrom rest := by
  rw [searchFrom, matchAtPos_zero]

theorem searchFrom_some {t cap : List Char} (h : searchFrom t = some cap) :
    ∃ i, matchAtPos t i = some cap ∧ ∀ j, j < i → matchAtPos t j = none := by
  induction t with
  | nil => simp [searchFrom] at h
  | cons c rest ih =>
    rw [searchFrom_cons] at h
    cases h0 : matchAtPos (c :: rest) 0 with
    | some cap0 =>
      rw [h0] at h
      simp only at h
      injection h with h
      subst h
      exact ⟨0, h0, fun j hj => absurd hj (Nat.not_lt_zero j)⟩
    | none =>
      rw [h0] at h
      simp only at h
      obtain ⟨i, h1, h2⟩ := ih h
      refine ⟨i + 1, ?_, ?_⟩
      · rw [matchAtPos_succ_cons]; exact h1
      · intro j hj
        cases j with
        | zero => exact h0
        | succ j => rw [matchAtPos_succ_cons]; exact h2 j (by omega)

theorem searchFrom_eq_some {t cap : List Char} {i : Nat}
    (h1 : matchAtPos t i = some cap) (h2 : ∀ j, j < i → matchAtPos t j = none) :
    searchFrom t = some cap := by
  induction t generalizing i with
  | nil =>
    rw [matchAtPos, List.drop_nil] at h1
    simp [startsWithFence] at h1
  | cons c rest ih =>
    rw [searchFrom_cons]
    cases i with
    | zero => rw [h1]
    | succ i =>
      rw [h2 0 (Nat.succ_pos i)]
      simp only
      rw [matchAtPos_succ_cons] at h1
      exact ih h1 (fun j hj => by
        have h3 := h2 (j + 1) (by omega)
        rwa [matchAtPos_succ_cons] at h3)

theorem searchFrom_eq_none {t : List Char} (h : ∀ i, matchAtPos t i = none) :
    searchFrom t = none := by
  induction t with
  | nil => rfl
  | cons c rest ih =>
    rw [searchFrom_cons, h 0]
    simp only
    exact ih (fun i => by
      have h3 := h (i + 1)
      rwa [matchAtPos_succ_cons] at h3)

theorem searchFrom_none {t : List Char} (h : searchFrom t = none) :
    ∀ i, matchAtPos t i = none := by
  induction t with
  | nil =>
    intro i
    rw [matchAtPos, List.drop_nil]
    simp [startsWithFence]
  | cons c rest ih =>
    rw [searchFrom_cons] at h
    cases h0 : matchAtPos (c :: rest) 0 with
    | some cap0 => rw [h0] at h; simp at h
    | none =>
      rw [h0] at h
      simp only at h
      intro i
      cases i with
      | zero => exact h0
      | succ i => rw [matchAtPos_succ_cons]; exact ih h i

theorem searchFrom_none_of_noFence {t : List Char} (hf : hasFence t = false) :
    searchFrom t = none := by
  refine searchFrom_eq_none (fun i => ?_)
  rw [matchAtPos]
  cases hs : startsWithFence (t.drop i) with
  | false => simp
  | true =>
    have : hasFence t = true := hasFence_drop (hasFence_of_fence hs)
    rw [this] at hf
    cases hf

/-! ### Bridging the code matcher and the spec's pattern description -/

theorem fenceChars_append (z : List Char) :
    fenceChars ++ z = btick :: btick :: btick :: z := rfl

theorem closeOK_spaces_fence {ws : List Char} (z : List Char)
    (h : ws.all isPySpace = true) : closeOK (ws ++ (fenceChars ++ z)) = true := by
  rw [closeOK, dropWhile_append_of_all _ h, fenceChars_append,
    dropWhile_cons_of_neg _ isPySpace_btick]
  exact startsWithFence_cons3 z

theorem drop_add_three {t : List Char} {i : Nat} {r : List Char}
    (h : t.drop i = btick :: btick :: btick :: r) : t.drop (i + 3) = r := by
  have h2 := List.drop_drop 3 i t
  rw [h] at h2
  simp only [List.drop_succ_cons, List.drop_zero] at h2
  exact h2.symm

theorem specCapture_of_matchAtPos {t cap : List Char} {i : Nat}
    (h : matchAtPos t i = some cap) : SpecCapture t i cap := by
  rw [matchAtPos] at h
  cases hs : startsWithFence (t.drop i) with
  | false => rw [hs] at h; simp at h
  | true =>
    rw [hs, if_pos rfl] at h
    obtain ⟨r0, hr0⟩ := startsWithFence_eq hs
    have hu : t.drop (i + 3) = r0 := drop_add_three hr0
    rw [matchAfterOpen_eq] at h
    cases hf : hasFence (t.drop (i + 3)) with
    | false => rw [hf] at h; simp at h
    | true =>
      rw [hf, if_pos rfl] at h
      obtain ⟨M, hcap, hM, hmin⟩ := tryAfterTagWs_some h
      set u : List Char := t.drop (i + 3) with hu_def
      set X : List Char := u.dropWhile isWordChar with hX_def
      set t2 : List Char := X.dropWhile isPySpace with ht2_def
      rw [closeOK] at hM
      obtain ⟨rest, hY⟩ := startsWithFence_eq hM
      have ht2 : cap ++ ((t2.drop M).takeWhile isPySpace ++ (fenceChars ++ rest)) = t2 := by
        rw [fenceChars_append, ← hY, List.takeWhile_append_dropWhile, hcap,
          List.take_append_drop]
      have hX : X.takeWhile isPySpace ++ (cap ++ ((t2.drop M).takeWhile isPySpace
          ++ (fenceChars ++ rest))) = X := by
        rw [ht2, ht2_def, List.takeWhile_append_dropWhile]
      have hU : u.takeWhile isWordChar ++ (X.takeWhile isPySpace ++ (cap ++
          ((t2.drop M).takeWhile isPySpace ++ (fenceChars ++ rest)))) = u := by
        rw [hX, hX_def, List.takeWhile_append_dropWhile]
      refine ⟨u.takeWhile isWordChar, X.takeWhile isPySpace,
        (t2.drop M).takeWhile isPySpace, rest, ?_, takeWhile_all _ _, ?_,
        takeWhile_all _ _, ?_, takeWhile_all _ _, ?_⟩
      · rw [hr0, fenceChars_append, hU, hu]
      · intro c r he
        rw [hX, hX_def] at he
        exact dropWhile_head_not he
      · intro c r he
        rw [ht2, ht2_def] at he
        exact dropWhile_head_not he
      · intro cap2 ws3 rest2 heq hws3
        rw [ht2] at heq
        have hC : closeOK (t2.drop cap2.length) = true := by
          rw [heq, List.drop_left]
          exact closeOK_spaces_fence _ hws3
        have hMle : M ≤ cap2.length := by
          by_contra hlt
          push_neg at hlt
          rw [hmin _ hlt] at hC
          cases hC
        have h1 : cap.length = min M t2.length := by rw [hcap, List.length_take]
        have h2 : min M t2.length ≤ M := Nat.min_le_left _ _
        omega

theorem matchAtPos_of_specCapture {t cap : List Char} {i : Nat}
    (h : SpecCapture t i cap) : matchAtPos t i = some cap := by
  obtain ⟨lang, ws1, ws2, rest, heq, hlang, hw1, hws1, hw2, hws2, hlazy⟩ := h
  rw [fenceChars_append] at heq
  have hs : startsWithFence (t.drop i) = true := by
    rw [heq]
    exact startsWithFence_cons3 _
  have hu : t.drop (i + 3) = lang ++ (ws1 ++ (cap ++ (ws2 ++ (fenceChars ++ rest)))) :=
    drop_add_three heq
  have hdw1 : (t.drop (i + 3)).dropWhile isWordChar
      = ws1 ++ (cap ++ (ws2 ++ (fenceChars ++ rest))) := by
    rw [hu, dropWhile_append_of_all _ hlang, dropWhile_eq_self_of_head hw1]
  have hdw2 : ((t.drop (i + 3)).dropWhile isWordChar).dropWhile isPySpace
      = cap ++ (ws2 ++ (fenceChars ++ rest)) := by
    rw [hdw1, dropWhile_append_of_all _ hws1, dropWhile_eq_self_of_head hw2]
  have hfence : hasFence (t.drop (i + 3)) = true := by
    rw [hu]
    exact hasFence_append_right _ (hasFence_append_right _ (hasFence_append_right _
      (hasFence_append_right _ (hasFence_of_fence (startsWithFence_fence_append rest)))))
  have hclose : closeOK ((cap ++ (ws2 ++ (fenceChars ++ rest))).drop cap.length) = true := by
    rw [List.drop_left]
    exact closeOK_spaces_fence _ hws2
  have hmin : ∀ j, j < cap.length →
      closeOK ((cap ++ (ws2 ++ (fenceChars ++ rest))).drop j) = false := by
    intro j hj
    cases hc : closeOK ((cap ++ (ws2 ++ (fenceChars ++ rest))).drop j) with
    | false => rfl
    | true =>
      rw [closeOK] at hc
      obtain ⟨rest2, hY⟩ := startsWithFence_eq hc
      have hsplit : cap ++ (ws2 ++ (fenceChars ++ rest))
          = (cap ++ (ws2 ++ (fenceChars ++ rest))).take j
            ++ ((((cap ++ (ws2 ++ (fenceChars ++ rest))).drop j).takeWhile isPySpace)
                ++ (fenceChars ++ rest2)) := by
        conv_lhs => rw [← List.take_append_drop j (cap ++ (ws2 ++ (fenceChars ++ rest)))]
        congr 1
        have hY2 : ((cap ++ (ws2 ++ (fenceChars ++ rest))).drop j).dropWhile isPySpace
            = fenceChars ++ rest2 := by
          rw [fenceChars_append rest2]
          exact hY
        rw [← hY2, List.takeWhile_append_dropWhile]
      have hlen := hlazy _ _ _ hsplit (takeWhile_all _ _)
      rw [List.length_take] at hlen
      have hmle : min j (cap ++ (ws2 ++ (fenceChars ++ rest))).length ≤ j :=
        Nat.min_le_left _ _
      omega
  have hafter : tryAfterTagWs (((t.drop (i + 3)).dropWhile isWordChar).dropWhile isPySpace)
      = some cap := by
    rw [hdw2, tryAfterTagWs_eq_some hclose hmin, List.take_left]
  rw [matchAtPos, hs, if_pos rfl, matchAfterOpen_eq, hfence, if_pos rfl]
  exact hafter

theorem matchAtPos_none_iff {t : List Char} {j : Nat} :
    matchAtPos t j = none ↔ ¬ SpecBlockAt t j := by
  constructor
  · intro h hb
    obtain ⟨c, hc⟩ := hb
    rw [matchAtPos_of_specCapture hc] at h
    cases h
  · intro h
    cases hm : matchAtPos t j with
    | none => rfl
    | some c => exact absurd ⟨c, specCapture_of_matchAtPos hm⟩ h

theorem specFirstMatch_of_search {t cap : List Char} (h : searchFrom t = some cap) :
    SpecFirstMatch t cap := by
  obtain ⟨i, h1, h2⟩ := searchFrom_some h
  exact ⟨i, specCapture_of_matchAtPos h1, fun j hj => matchAtPos_none_iff.mp (h2 j hj)⟩

theorem search_of_specFirstMatch {t cap : List Char} (h : SpecFirstMatch t cap) :
    searchFrom t = some cap := by
  obtain ⟨i, h1, h2⟩ := h
  exact searchFrom_eq_some (matchAtPos_of_specCapture h1)
    (fun j hj => matchAtPos_none_iff.mpr (h2 j hj))

/-! ### Properties of stripping -/

theorem exists_trailing_spaces (l : List Char) :
    ∃ S, l = dropTrailingSpace l ++ S ∧ S.all isPySpace = true := by
  refine ⟨(l.reverse.takeWhile isPySpace).reverse, ?_, ?_⟩
  · rw [dropTrailingSpace, ← List.reverse_append, List.takeWhile_append_dropWhile,
      List.reverse_reverse]
  · rw [List.all_reverse]
    exact takeWhile_all _ _

theorem pyStrip_head_aux (l : List Char) :
    (dropTrailingSpace (l.dropWhile isPySpace)).dropWhile isPySpace
      = dropTrailingSpace (l.dropWhile isPySpace) := by
  apply dropWhile_eq_self_of_head
  intro c r he
  obtain ⟨S, hS, _⟩ := exists_trailing_spaces (l.dropWhile isPySpace)
  rw [he, List.cons_append] at hS
  exact dropWhile_head_not hS

theorem dropTrailingSpace_idem (l : List Char) :
    dropTrailingSpace (dropTrailingSpace l) = dropTrailingSpace l := by
  simp only [dropTrailingSpace, List.reverse_reverse, dropWhile_idem]

theorem pyStrip_idem (l : List Char) : pyStrip (pyStrip l) = pyStrip l := by
  simp only [pyStrip]
  rw [pyStrip_head_aux, dropTrailingSpace_idem]

theorem hasFence_dropTrailingSpace_false {l : List Char} (h : hasFence l = false) :
    hasFence (dropTrailingSpace l) = false := by
  obtain ⟨S, hS, _⟩ := exists_trailing_spaces l
  rw [hS] at h
  exact (hasFence_false_append h).1

theorem hasFence_pyStrip_false {l : List Char} (h : hasFence l = false) :
    hasFence (pyStrip l) = false := by
  rw [pyStrip]
  apply hasFence_dropTrailingSpace_false
  rw [hasFence_dropWhile isPySpace_btick]
  exact h

/-! ### Unfolding the extractor -/

theorem parse_eq_match (v : PyValue) :
    parse_and_clean_code v =
      match searchFrom (pyStrip (pyToStr v)) with
      | some g => pyStrip g
      | none => pyStrip (pyToStr v) := rfl

theorem parse_of_search_some (v : PyValue) {g : List Char}
    (h : searchFrom (pyStrip (pyToStr v)) = some g) :
    parse_and_clean_code v = pyStrip g := by
  rw [parse_eq_match, h]

theorem parse_of_search_none (v : PyValue)
    (h : searchFrom (pyStrip (pyToStr v)) = none) :
    parse_and_clean_code v = pyStrip (pyToStr v) := by
  rw [parse_eq_match, h]

/-! ### The captured span never contains a fence -/

theorem startsWithFence_take {X : List Char} {k : Nat}
    (h : startsWithFence (X.take k) = true) : startsWithFence X = true := by
  obtain ⟨r, hr⟩ := startsWithFence_eq h
  have hX : X = btick :: btick :: btick :: (r ++ X.drop k) := by
    conv_lhs => rw [← List.take_append_drop k X]
    rw [hr, List.cons_append, List.cons_append, List.cons_append]
  rw [hX]
  exact startsWithFence_cons3 _

theorem searchFrom_cap_noFence {t cap : List Char} (h : searchFrom t = some cap) :
    hasFence cap = false := by
  obtain ⟨i, h1, _⟩ := searchFrom_some h
  rw [matchAtPos] at h1
  cases hs : startsWithFence (t.drop i) with
  | false => rw [hs] at h1; simp at h1
  | true =>
    rw [hs, if_pos rfl] at h1
    rw [matchAfterOpen_eq] at h1
    cases hf : hasFence (t.drop (i + 3)) with
    | false => rw [hf] at h1; simp at h1
    | true =>
      rw [hf, if_pos rfl] at h1
      obtain ⟨M, hcap, hM, hmin⟩ := tryAfterTagWs_some h1
      set t2 : List Char := ((t.drop (i + 3)).dropWhile isWordChar).dropWhile isPySpace
        with ht2
      cases hc : hasFence cap with
      | false => rfl
      | true =>
        obtain ⟨d, hd⟩ := hasFence_iff.mp hc
        have hlen3 := startsWithFence_length hd
        rw [List.length_drop] at hlen3
        have hdlen : d + 3 ≤ cap.length := by omega
        rw [hcap, List.drop_take] at hd
        have hfd : startsWithFence (t2.drop d) = true := startsWithFence_take hd
        have hcOK : closeOK (t2.drop d) = true := closeOK_of_fence hfd
        have hcapM : cap.length ≤ M := by
          rw [hcap, List.length_take]
          exact Nat.min_le_left _ _
        have hdM : d < M := by omega
        rw [hmin d hdM] at hcOK
        cases hcOK

/-! ### The first fence occurrence -/

theorem firstFenceIdx_spec {t : List Char} {p : Nat} (h : firstFenceIdx t = some p) :
    startsWithFence (t.drop p) = true ∧
      ∀ j, j < p → startsWithFence (t.drop j) = false := by
  induction t generalizing p with
  | nil => simp [firstFenceIdx] at h
  | cons c rest ih =>
    rw [firstFenceIdx] at h
    by_cases hs : startsWithFence (c :: rest) = true
    · rw [if_pos hs] at h
      injection h with h
      subst h
      exact ⟨by simpa using hs, fun j hj => absurd hj (Nat.not_lt_zero j)⟩
    · rw [if_neg hs] at h
      cases hf : firstFenceIdx rest with
      | none => rw [hf] at h; simp at h
      | some n =>
        rw [hf] at h
        simp only at h
        injection h with h
        subst h
        obtain ⟨h1, h2⟩ := ih hf
        refine ⟨by simpa using h1, ?_⟩
        intro j hj
        cases j with
        | zero =>
          rw [List.drop_zero]
          exact Bool.eq_false_iff.mpr hs
        | succ j =>
          rw [List.drop_succ_cons]
          exact h2 j (by omega)

/-! ### No closing fence can be reached inside the stripped body -/

theorem no_early_closeOK {R W z : List Char}
    (hW : W.all isPySpace = true) (hWne : W ≠ [])
    (hRf : hasFence R = false)
    (hRlast : ∃ c cs, R.reverse = c :: cs ∧ isPySpace c = false) :
    ∀ j, j < R.length → closeOK ((R ++ (W ++ (fenceChars ++ z))).drop j) = false := by
  intro j hj
  obtain ⟨c, cs, hrev, hcns⟩ := hRlast
  have hdropj : (R ++ (W ++ (fenceChars ++ z))).drop j
      = R.drop j ++ (W ++ (fenceChars ++ z)) := by
    rw [List.drop_append_eq_append_drop]
    have hz : j - R.length = 0 := by omega
    rw [hz, List.drop_zero]
  have hDne : R.drop j ≠ [] := by
    have hlen : (R.drop j).length = R.length - j := List.length_drop _ _
    intro hnil
    rw [hnil] at hlen
    simp at hlen
    omega
  have hrev2 : R.reverse = (R.drop j).reverse ++ (R.take j).reverse := by
    conv_lhs => rw [← List.take_append_drop j R]
    rw [List.reverse_append]
  have hrevD : ∃ ds, (R.drop j).reverse = c :: ds := by
    cases hD : (R.drop j).reverse with
    | nil =>
      exfalso
      apply hDne
      have h2 := congrArg List.reverse hD
      simpa using h2
    | cons d ds =>
      rw [hD] at hrev2
      rw [hrev2, List.cons_append] at hrev
      injection hrev with h1 _
      exact ⟨ds, by rw [h1]⟩
  have hDnotall : ¬ (R.drop j).all isPySpace = true := by
    intro hall
    obtain ⟨ds, hD⟩ := hrevD
    have hra : ((R.drop j).reverse).all isPySpace = true := by
      rw [List.all_reverse]
      exact hall
    rw [hD] at hra
    simp only [List.all_cons, Bool.and_eq_true] at hra
    rw [hra.1] at hcns
    cases hcns
  have hAne : ¬ (R.drop j).dropWhile isPySpace = [] := by
    intro hnil
    exact hDnotall (List.all_eq_true.mpr (fun x hx => List.dropWhile_eq_nil_iff.mp hnil x hx))
  have hAfence : hasFence ((R.drop j).dropWhile isPySpace) = false := by
    rw [hasFence_dropWhile isPySpace_btick]
    exact hasFence_drop_false j hRf
  obtain ⟨w0, W', hW0⟩ : ∃ w0 W', W = w0 :: W' := by
    cases W with
    | nil => exact absurd rfl hWne
    | cons w0 W' => exact ⟨w0, W', rfl⟩
  have hw0 : isPySpace w0 = true := by
    rw [hW0] at hW
    simp only [List.all_cons, Bool.and_eq_true] at hW
    exact hW.1
  rw [hdropj, closeOK, dropWhile_append_of_ne_nil _ hAne]
  rcases hA : (R.drop j).dropWhile isPySpace with _ | ⟨a1, _ | ⟨a2, _ | ⟨a3, A3⟩⟩⟩
  · exact absurd hA hAne
  · rw [hW0]
    simp only [List.cons_append, List.nil_append]
    cases hsw : startsWithFence (a1 :: w0 :: (W' ++ (fenceChars ++ z))) with
    | false => rfl
    | true =>
      obtain ⟨r', hr'⟩ := startsWithFence_eq hsw
      injection hr' with h1 hr'
      injection hr' with h2 _
      rw [h2, isPySpace_btick] at hw0
      cases hw0
  · rw [hW0]
    simp only [List.cons_append, List.nil_append]
    cases hsw : startsWithFence (a1 :: a2 :: w0 :: (W' ++ (fenceChars ++ z))) with
    | false => rfl
    | true =>
      obtain ⟨r', hr'⟩ := startsWithFence_eq hsw
      injection hr' with h1 hr'
      injection hr' with h2 hr'
      injection hr' with h3 _
      rw [h3, isPySpace_btick] at hw0
      cases hw0
  · simp only [List.cons_append]
    cases hsw : startsWithFence (a1 :: a2 :: a3 :: (A3 ++ (W ++ (fenceChars ++ z)))) with
    | false => rfl
    | true =>
      obtain ⟨r', hr'⟩ := startsWithFence_eq hsw
      injection hr' with h1 hr'
      injection hr' with h2 hr'
      injection hr' with h3 _
      rw [hA, h1, h2, h3] at hAfence
      rw [hasFence_of_fence (startsWithFence_cons3 A3)] at hAfence
      cases hAfence

/-! ### Claim C1 -/

/-- Claim C1: for every string whose trimmed form is exactly a fenced
block (three backticks, a word-character language tag, a newline, a body
CODE with no triple backtick, a newline, three backticks), the extractor
returns CODE with its own surrounding whitespace trimmed. -/
theorem claim_C1 (s LANG CODE : List Char)
    (hd : pyStrip s = fenceChars ++ (LANG ++ ('\n' :: (CODE ++ ('\n' :: fenceChars)))))
    (hw : LANG.all isWordChar = true)
    (hcf : hasFence CODE = false) :
    parse_and_clean_code (.str s) = pyStrip CODE := by
  have hnlspace : isPySpace '\n' = true := by decide
  have hnlword : isWordChar '\n' = false := by decide
  have hCODE : CODE.takeWhile isPySpace ++ CODE.dropWhile isPySpace = CODE :=
    List.takeWhile_append_dropWhile _ _
  have hspec : SpecCapture (pyStrip s) 0 (pyStrip CODE) := by
    cases hC1 : CODE.dropWhile isPySpace with
    | nil =>
      have hall : CODE.all isPySpace = true :=
        List.all_eq_true.mpr (fun x hx => List.dropWhile_eq_nil_iff.mp hC1 x hx)
      have hstrip : pyStrip CODE = [] := by rw [pyStrip, hC1]; rfl
      rw [hstrip]
      refine ⟨LANG, '\n' :: (CODE ++ ['\n']), [], [], ?_, hw, ?_, ?_, ?_, rfl, ?_⟩
      · rw [List.drop_zero, hd]
        simp [List.append_assoc]
      · intro c r he
        simp only [List.cons_append] at he
        injection he with h1 _
        rw [← h1]
        exact hnlword
      · simp only [List.all_cons, Bool.and_eq_true, List.all_append]
        exact ⟨hnlspace, hall, by decide⟩
      · intro c r he
        simp only [List.nil_append, List.append_nil, fenceChars] at he
        injection he with h1 _
        rw [← h1]
        exact isPySpace_btick
      · intro cap2 ws3 rest2 _ _
        simp
    | cons c0 cs =>
      have hC0 : isPySpace c0 = false := dropWhile_head_not hC1
      obtain ⟨S, hS, hSall⟩ := exists_trailing_spaces (CODE.dropWhile isPySpace)
      have hS2 : CODE.dropWhile isPySpace = pyStrip CODE ++ S := by
        rw [pyStrip]
        exact hS
      have hWall : (S ++ ['\n']).all isPySpace = true := by
        simp only [List.all_append, List.all_cons, Bool.and_eq_true]
        exact ⟨hSall, hnlspace, by decide⟩
      have hRne : pyStrip CODE ≠ [] := by
        intro hnil
        rw [hnil, List.nil_append, hC1] at hS2
        have hmem : isPySpace c0 = true :=
          List.all_eq_true.mp hSall c0 (by rw [← hS2]; exact List.mem_cons_self _ _)
        rw [hmem] at hC0
        cases hC0
      obtain ⟨r0, R', hR⟩ : ∃ r0 R', pyStrip CODE = r0 :: R' := by
        cases hPC : pyStrip CODE with
        | nil => exact absurd hPC hRne
        | cons r0 R' => exact ⟨r0, R', rfl⟩
      have hr0 : r0 = c0 := by
        have hS3 := hS2
        rw [hC1, hR, List.cons_append] at hS3
        injection hS3 with h1 _
        exact h1.symm
      have hRlast : ∃ c2 cs2, (pyStrip CODE).reverse = c2 :: cs2 ∧ isPySpace c2 = false := by
        have hrev : (pyStrip CODE).reverse
            = (CODE.dropWhile isPySpace).reverse.dropWhile isPySpace := by
          rw [pyStrip, dropTrailingSpace, List.reverse_reverse]
        cases hcase : (pyStrip CODE).reverse with
        | nil =>
          exfalso
          apply hRne
          have h2 := congrArg List.reverse hcase
          simpa using h2
        | cons c2 cs2 =>
          refine ⟨c2, cs2, rfl, ?_⟩
          rw [hcase] at hrev
          exact dropWhile_head_not hrev.symm
      have hRf : hasFence (pyStrip CODE) = false := by
        have hfC1 : hasFence (CODE.dropWhile isPySpace) = false := by
          rw [hasFence_dropWhile isPySpace_btick]
          exact hcf
        rw [hS2] at hfC1
        exact (hasFence_false_append hfC1).1
      have hCeq : CODE = CODE.takeWhile isPySpace ++ (pyStrip CODE ++ S) := by
        conv_lhs => rw [← hCODE]
        rw [hS2]
      refine ⟨LANG, '\n' :: CODE.takeWhile isPySpace, S ++ ['\n'], [],
        ?_, hw, ?_, ?_, ?_, hWall, ?_⟩
      · rw [List.drop_zero, hd]
        conv_lhs => rw [hCeq]
        simp [List.append_assoc]
      · intro c r he
        simp only [List.cons_append] at he
        injection he with h1 _
        rw [← h1]
        exact hnlword
      · simp only [List.all_cons, Bool.and_eq_true]
        exact ⟨hnlspace, takeWhile_all _ _⟩
      · intro c r he
        rw [hR, List.cons_append] at he
        injection he with h1 _
        rw [← h1, hr0]
        exact hC0
      · intro cap2 ws3 rest2 heq hws3
        by_contra hlt
        push_neg at hlt
        have hclose : closeOK ((pyStrip CODE
            ++ ((S ++ ['\n']) ++ (fenceChars ++ []))).drop cap2.length) = true := by
          rw [heq, List.drop_left]
          exact closeOK_spaces_fence _ hws3
        have hWne : S ++ ['\n'] ≠ [] := by simp
        rw [no_early_closeOK hWall hWne hRf hRlast cap2.length hlt] at hclose
        cases hclose
  have hm : matchAtPos (pyStrip s) 0 = some (pyStrip CODE) :=
    matchAtPos_of_specCapture hspec
  have hsearch : searchFrom (pyStrip s) = some (pyStrip CODE) :=
    searchFrom_eq_some hm (fun j hj => absurd hj (Nat.not_lt_zero j))
  rw [parse_of_search_some (PyValue.str s) hsearch, pyStrip_idem]

/-- Witness for C1: a concrete fenced block with tag tsx and a one-line
body. -/
theorem claim_C1_witness :
    pyStrip "```tsx\nconst x = 1\n```".data
        = fenceChars ++ ("tsx".data ++ ('\n' :: ("const x = 1".data ++ ('\n' :: fenceChars)))) ∧
      "tsx".data.all isWordChar = true ∧
      hasFence "const x = 1".data = false ∧
      parse_and_clean_code (.str "```tsx\nconst x = 1\n```".data)
        = pyStrip "const x = 1".data :=
  ⟨by decide, by decide, by decide,
    claim_C1 "```tsx\nconst x = 1\n```".data "tsx".data "const x = 1".data
      (by decide) (by decide) (by decide)⟩

theorem pyToStr_str (s : List Char) : pyToStr (.str s) = s := rfl

/-! ### Claim C2 -/

/-- Claim C2: only the FIRST fenced block is honoured - whenever the
spec's pattern first matches in the trimmed input with captured span
cap, the extractor returns the trimmed cap and silently discards
everything else (prose before the fence, content after the closing
fence, further blocks); in particular the spec's two literal scenarios
hold. -/
theorem claim_C2 :
    (∀ s cap, SpecFirstMatch (pyStrip s) cap →
        parse_and_clean_code (.str s) = pyStrip cap) ∧
      parse_and_clean_code (.str "```a\nX\n``` trailing ```b\nY\n```".data) = "X".data ∧
      parse_and_clean_code
          (.str "Here is your code:\n```tsx\nconst PageComponent = () => \x7b return null; \x7d;\n```\n".data)
        = "const PageComponent = () => \x7b return null; \x7d;".data := by
  refine ⟨fun s cap h => ?_, by decide, by decide⟩
  exact parse_of_search_some (PyValue.str s) (search_of_specFirstMatch h)

/-- Witness for C2: the first-block property instantiated at a concrete
input holding two fenced blocks. -/
theorem claim_C2_witness :
    SpecFirstMatch (pyStrip "```a\nX\n``` second ```b\nY\n```".data) "X".data ∧
      parse_and_clean_code (.str "```a\nX\n``` second ```b\nY\n```".data)
        = pyStrip "X".data := by
  have h : searchFrom (pyStrip "```a\nX\n``` second ```b\nY\n```".data)
      = some "X".data := by decide
  have h2 := specFirstMatch_of_search h
  exact ⟨h2, claim_C2.1 "```a\nX\n``` second ```b\nY\n```".data "X".data h2⟩

/-! ### Claim C3 -/

/-- Claim C3: on any string containing no triple backtick the extractor
returns the input with leading and trailing whitespace trimmed. -/
theorem claim_C3 (s : List Char) (hf : hasFence s = false) :
    parse_and_clean_code (.str s) = pyStrip s :=
  parse_of_search_none (PyValue.str s)
    (searchFrom_none_of_noFence (hasFence_pyStrip_false hf))

/-- Witness for C3 at a fence-free input. -/
theorem claim_C3_witness :
    hasFence "  hello world\n".data = false ∧
      parse_and_clean_code (.str "  hello world\n".data)
        = pyStrip "  hello world\n".data :=
  ⟨by decide, claim_C3 "  hello world\n".data (by decide)⟩

/-! ### Claim C4 -/

/-- Claim C4: if the trimmed input contains an opening fence but no
fence occurrence from three characters past the first one (no closing
fence), the search fails and the whole trimmed input is returned
unchanged, fence marker included. -/
theorem claim_C4 (s : List Char) (p : Nat)
    (h1 : firstFenceIdx (pyStrip s) = some p)
    (h2 : ∀ q, q < (pyStrip s).length → p + 3 ≤ q →
      startsWithFence ((pyStrip s).drop q) = false) :
    parse_and_clean_code (.str s) = pyStrip s := by
  obtain ⟨hp, hmin⟩ := firstFenceIdx_spec h1
  have hnone : searchFrom (pyStrip s) = none := by
    refine searchFrom_eq_none (fun i => ?_)
    rw [matchAtPos]
    cases hs : startsWithFence ((pyStrip s).drop i) with
    | false => simp
    | true =>
      rw [if_pos rfl]
      have hip : p ≤ i := by
        by_contra hlt
        push_neg at hlt
        rw [hmin i hlt] at hs
        cases hs
      have hff : hasFence ((pyStrip s).drop (i + 3)) = false := by
        cases hf : hasFence ((pyStrip s).drop (i + 3)) with
        | false => rfl
        | true =>
          obtain ⟨d, hd⟩ := hasFence_iff.mp hf
          rw [List.drop_drop] at hd
          have hqlen : i + 3 + d < (pyStrip s).length := by
            have h3 := startsWithFence_length hd
            rw [List.length_drop] at h3
            omega
          rw [h2 (i + 3 + d) hqlen (by omega)] at hd
          cases hd
      have him := matchAfterOpen_isSome ((pyStrip s).drop (i + 3))
      rw [hff] at him
      cases hmo : matchAfterOpen ((pyStrip s).drop (i + 3)) with
      | none => rfl
      | some g => rw [hmo] at him; cases him
  exact parse_of_search_none (PyValue.str s) hnone

/-- Witness for C4 at the spec's literal scenario with a missing closing
fence. -/
theorem claim_C4_witness :
    firstFenceIdx (pyStrip "```js\nconst x = 1;".data) = some 0 ∧
      parse_and_clean_code (.str "```js\nconst x = 1;".data)
        = pyStrip "```js\nconst x = 1;".data :=
  ⟨by decide, claim_C4 "```js\nconst x = 1;".data 0 (by decide) (by decide)⟩

/-! ### Claim C5 -/

/-- Claim C5: the fenced-block search of the code matches exactly the
pattern the spec describes - for every input the first match found by
the regex coincides (position and captured span) with the first
occurrence of the spec's described pattern, with the whitespace before
the closing fence a possibly empty run on both sides; and the search
fails exactly when the described pattern occurs nowhere. -/
theorem claim_C5 (t : List Char) :
    (∀ cap, searchFrom t = some cap ↔ SpecFirstMatch t cap) ∧
      (searchFrom t = none ↔ ∀ i, ¬ SpecBlockAt t i) := by
  refine ⟨fun cap => ⟨specFirstMatch_of_search, search_of_specFirstMatch⟩, ?_, ?_⟩
  · intro h i
    exact matchAtPos_none_iff.mp (searchFrom_none h i)
  · intro h
    exact searchFrom_eq_none (fun i => matchAtPos_none_iff.mpr (h i))

/-! ### Claim C6 -/

/-- Claim C6: the extractor is total and never fails - every input
(including the empty string, whitespace-only strings, and non-string
values, which are coerced via str rather than rejected) produces a
defined string. -/
theorem claim_C6 :
    (∀ v : PyValue, ∃ out, parse_and_clean_code v = out) ∧
      parse_and_clean_code (.str "".data) = "".data ∧
      parse_and_clean_code (.str "   \n\t ".data) = "".data ∧
      parse_and_clean_code (.intVal 123) = "123".data :=
  ⟨fun v => ⟨parse_and_clean_code v, rfl⟩, by decide, by decide, by decide⟩

/-! ### Claim C7 -/

/-- Claim C7: idempotence on already-clean output - if the extractor
returned c on some input and c contains no triple backtick, then
extracting c returns c unchanged. -/
theorem claim_C7 (s c : List Char) (h1 : parse_and_clean_code (.str s) = c)
    (h2 : hasFence c = false) : parse_and_clean_code (.str c) = c := by
  have hstr : pyStrip c = c := by
    rw [← h1]
    cases hs : searchFrom (pyStrip s) with
    | some g => rw [parse_of_search_some (PyValue.str s) hs, pyStrip_idem]
    | none =>
      rw [parse_of_search_none (PyValue.str s) hs, pyToStr_str, pyStrip_idem]
  have hnone : searchFrom (pyStrip c) = none := by
    rw [hstr]
    exact searchFrom_none_of_noFence h2
  rw [parse_of_search_none (PyValue.str c) hnone, pyToStr_str, hstr]

/-- Witness for C7. -/
theorem claim_C7_witness :
    parse_and_clean_code (.str "plain text".data) = "plain text".data ∧
      hasFence "plain text".data = false ∧
      parse_and_clean_code (.str "plain text".data) = "plain text".data :=
  ⟨by decide, by decide,
    claim_C7 "plain text".data "plain text".data (by decide) (by decide)⟩

/-! ### Claim C8 -/

/-- Claim C8: the extractor is deterministic and its diagnostic trace
does not influence the result - the traced run returns exactly the pure
function's value together with the fixed trace line. -/
theorem claim_C8 (v : PyValue) :
    parse_and_clean_code_traced v
      = (parse_and_clean_code v, ["Running code parser...".data]) := by
  have htr : parse_and_clean_code_traced v =
      match searchFrom (pyStrip (pyToStr v)) with
      | some g => (pyStrip g, ["Running code parser...".data])
      | none => (pyStrip (pyToStr v), ["Running code parser...".data]) := rfl
  rw [htr, parse_eq_match]
  cases hs : searchFrom (pyStrip (pyToStr v)) <;> rfl

/-! ### Claim C9 -/

/-- Claim C9: the extractor is idempotent on every string input, not
only on fence-free output. -/
theorem claim_C9 (s : List Char) :
    parse_and_clean_code (.str (parse_and_clean_code (.str s)))
      = parse_and_clean_code (.str s) := by
  cases hs : searchFrom (pyStrip s) with
  | none =>
    have h1 : parse_and_clean_code (.str s) = pyStrip s := by
      have := parse_of_search_none (PyValue.str s) hs
      rwa [pyToStr_str] at this
    have h2 : searchFrom (pyStrip (pyStrip s)) = none := by
      rw [pyStrip_idem]
      exact hs
    rw [h1, parse_of_search_none (PyValue.str (pyStrip s)) h2, pyToStr_str,
      pyStrip_idem]
  | some g =>
    have h1 : parse_and_clean_code (.str s) = pyStrip g :=
      parse_of_search_some (PyValue.str s) hs
    have hgf2 : hasFence (pyStrip g) = false :=
      hasFence_pyStrip_false (searchFrom_cap_noFence hs)
    have h2 : searchFrom (pyStrip (pyStrip g)) = none := by
      rw [pyStrip_idem]
      exact searchFrom_none_of_noFence hgf2
    rw [h1, parse_of_search_none (PyValue.str (pyStrip g)) h2, pyToStr_str,
      pyStrip_idem]

/-! ### Claim C10 -/

/-- Claim C10: whenever the fenced-block search matches, the captured
span contains no triple backtick, and hence neither does the returned
string. -/
theorem claim_C10 (s cap : List Char) (h : searchFrom (pyStrip s) = some cap) :
    hasFence cap = false ∧
      parse_and_clean_code (.str s) = pyStrip cap ∧
      hasFence (parse_and_clean_code (.str s)) = false := by
  have h1 := searchFrom_cap_noFence h
  have h2 := parse_of_search_some (PyValue.str s) h
  refine ⟨h1, h2, ?_⟩
  rw [h2]
  exact hasFence_pyStrip_false h1

/-- Witness for C10. -/
theorem claim_C10_witness :
    searchFrom (pyStrip "```py\nx = 2\n```".data) = some "x = 2".data ∧
      hasFence "x = 2".data = false ∧
      parse_and_clean_code (.str "```py\nx = 2\n```".data) = pyStrip "x = 2".data ∧
      hasFence (parse_and_clean_code (.str "```py\nx = 2\n```".data)) = false := by
  have h : searchFrom (pyStrip "```py\nx = 2\n```".data) = some "x = 2".data := by
    decide
  obtain ⟨a, b, c⟩ := claim_C10 "```py\nx = 2\n```".data "x = 2".data h
  exact ⟨h, a, b, c⟩
